import Mathlib

/-!
Shallow embedding of the core of `TOOL/add_manga_metadata.py`:
task/file status store (`TaskManager`), memory cache (`MemoryCacheManager`),
disk throttle (`DiskIOController`), ZIP structure analysis and conversion
(`ZipStructureConverter`), and the per-file pipeline (`ZipMetadataAdder`).
Python dicts are modelled as insertion-ordered association lists, machine
integers as `Int`/`Nat`, time and rates as `Rat`, file bytes as `List Nat`.
-/

/-! ### Association lists (Python dict semantics: insertion order kept,
assignment to an existing key updates in place, a new key is appended). -/

def alistGet? {κ α : Type} [DecidableEq κ] : List (κ × α) → κ → Option α
  | [], _ => none
  | (k', v) :: rest, k => if k' = k then some v else alistGet? rest k

def alistSet {κ α : Type} [DecidableEq κ] : List (κ × α) → κ → α → List (κ × α)
  | [], k, v => [(k, v)]
  | (k', v') :: rest, k, v =>
      if k' = k then (k, v) :: rest else (k', v') :: alistSet rest k v

def alistErase {κ α : Type} [DecidableEq κ] : List (κ × α) → κ → List (κ × α)
  | [], _ => []
  | (k', v') :: rest, k => if k' = k then rest else (k', v') :: alistErase rest k

/-! ### TaskRecord and file records (`TaskManager`, lines 775-1010). -/

inductive Status
  | pending
  | success
  | failed
  | skipped
deriving DecidableEq, Repr, Fintype

inductive TrStatus
  | pending
  | success
  | failed
deriving DecidableEq, Repr

structure FileRecord where
  status : Status
  error : String
  translationStatus : TrStatus
  translationError : String
  updatedAt : String
deriving DecidableEq, Repr

/-- Translation counters, created lazily by `_update_translation_statistics`. -/
structure TransStats where
  translationSuccess : Int
  translationFailed : Int
  translationPending : Int
deriving DecidableEq, Repr

structure Statistics where
  total : Int
  success : Int
  failed : Int
  skipped : Int
  pending : Int
  translation : Option TransStats
deriving DecidableEq, Repr

/-- A task record: the fields touched by status updates (`task_id`,
`folder_path` and `created_at` never change after creation and play no
role in the modelled operations). -/
structure TaskRecord where
  files : List (String × FileRecord)
  statistics : Statistics
  updatedAt : String
deriving DecidableEq, Repr

/-- The fresh record inserted by `update_file_status` /
`update_file_translation_status` for a filename not yet in the map. -/
def freshFileRecord : FileRecord :=
  { status := .pending, error := "", translationStatus := .pending,
    translationError := "", updatedAt := "" }

/-- `TaskManager._update_statistics` (lines 930-949). -/
def updateStatistics (stats : Statistics) (oldStatus newStatus : Status) : Statistics :=
  let s1 :=
    match oldStatus with
    | .pending => { stats with pending := stats.pending - 1 }
    | .success => { stats with success := stats.success - 1 }
    | .failed => { stats with failed := stats.failed - 1 }
    | .skipped => { stats with skipped := stats.skipped - 1 }
  match newStatus with
  | .success => { s1 with success := s1.success + 1 }
  | .failed => { s1 with failed := s1.failed + 1 }
  | .skipped => { s1 with skipped := s1.skipped + 1 }
  | .pending => { s1 with pending := s1.pending + 1 }

/-- `TaskManager._update_translation_statistics` (lines 951-972); `numFiles`
is `len(task_data['files'])` at call time, used to seed the lazy counters. -/
def updateTranslationStatistics (stats : Statistics) (oldStatus newStatus : TrStatus)
    (numFiles : Nat) : Statistics :=
  let t0 := stats.translation.getD
    { translationSuccess := 0, translationFailed := 0, translationPending := (numFiles : Int) }
  let t1 :=
    match oldStatus with
    | .pending => { t0 with translationPending := t0.translationPending - 1 }
    | .success => { t0 with translationSuccess := t0.translationSuccess - 1 }
    | .failed => { t0 with translationFailed := t0.translationFailed - 1 }
  let t2 :=
    match newStatus with
    | .success => { t1 with translationSuccess := t1.translationSuccess + 1 }
    | .failed => { t1 with translationFailed := t1.translationFailed + 1 }
    | .pending => { t1 with translationPending := t1.translationPending + 1 }
  { stats with translation := some t2 }

/-- `TaskManager.update_file_status` (lines 873-899): insert a fresh pending
record if the filename is absent, overwrite status/error/timestamp, then
adjust the counters from the old status to the new one. -/
def updateFileStatus (t : TaskRecord) (filename : String) (status : Status)
    (errorMsg : String) (now : String) : TaskRecord :=
  let files0 :=
    if (alistGet? t.files filename).isSome then t.files
    else t.files ++ [(filename, freshFileRecord)]
  let oldRec := (alistGet? files0 filename).getD freshFileRecord
  let files1 := alistSet files0 filename
    { oldRec with status := status, error := errorMsg, updatedAt := now }
  { t with files := files1,
           statistics := updateStatistics t.statistics oldRec.status status,
           updatedAt := now }

/-- `TaskManager.update_file_translation_status` (lines 901-928). -/
def updateFileTranslationStatus (t : TaskRecord) (filename : String) (status : TrStatus)
    (errorMsg : String) (now : String) : TaskRecord :=
  let files0 :=
    if (alistGet? t.files filename).isSome then t.files
    else t.files ++ [(filename, freshFileRecord)]
  let oldRec := (alistGet? files0 filename).getD freshFileRecord
  let files1 := alistSet files0 filename
    { oldRec with translationStatus := status, translationError := errorMsg, updatedAt := now }
  { t with files := files1,
           statistics := updateTranslationStatistics t.statistics
             oldRec.translationStatus status files0.length,
           updatedAt := now }

/-- `TaskManager.get_pending_files` (lines 980-989). -/
def getPendingFiles (t : TaskRecord) : List String :=
  (t.files.filter fun p => p.2.status = Status.pending).map Prod.fst

/-- `TaskManager.get_failed_files` (lines 992-1001). -/
def getFailedFiles (t : TaskRecord) : List String :=
  (t.files.filter fun p => p.2.status = Status.failed).map Prod.fst

/-! ### Statistics invariant (claim C1). -/

def countStatus : List (String × FileRecord) → Status → Nat
  | [], _ => 0
  | p :: rest, s => (if p.2.status = s then 1 else 0) + countStatus rest s

/-- Projection of the counter for one status. -/
def statField (stats : Statistics) : Status → Int
  | .pending => stats.pending
  | .success => stats.success
  | .failed => stats.failed
  | .skipped => stats.skipped

/-- Every file's current status is counted exactly once. -/
def statsExact (t : TaskRecord) : Prop :=
  ∀ s : Status, statField t.statistics s = (countStatus t.files s : Int)

def sumStats (stats : Statistics) : Int :=
  stats.pending + stats.success + stats.failed + stats.skipped

/-! ### ZIP structure analysis and conversion (`ZipStructureConverter`,
lines 663-770).  Entry names are lists of characters, file bytes `List Nat`. -/

abbrev EntryName := List Char

abbrev Content := List Nat

/-- Python `item.rstrip('/')`. -/
def rstripSlashes (s : EntryName) : EntryName :=
  (s.reverse.dropWhile (· = '/')).reverse

/-- Python `s.split('/')[0]`. -/
def firstSeg (s : EntryName) : EntryName :=
  s.takeWhile (· ≠ '/')

/-- The set of first-level items of `analyze_zip_structure` (lines 675-687):
for each entry, strip trailing slashes, skip the entry if nothing is left,
otherwise record the part before the first `/`.  The Python `set` is
modelled as a duplicate-free list. -/
def rootLevelItems (fileList : List EntryName) : List EntryName :=
  ((((fileList.map rstripSlashes).filter (· ≠ [])).map firstSeg)).dedup

inductive ZipStructure
  | unknown
  | flat
  | nested (folderName : EntryName)
deriving DecidableEq, Repr

/-- `ZipStructureConverter.analyze_zip_structure` (lines 664-712) over the
archive's entry-name list (`zf.namelist()`). -/
def analyzeZipStructure (fileList : List EntryName) : ZipStructure :=
  if fileList = [] then .unknown
  else
    match rootLevelItems fileList with
    | [single] =>
        let isFolder := fileList.any fun item =>
          item.contains '/' && (rstripSlashes item).contains '/' &&
            (firstSeg (rstripSlashes item) == single)
        if isFolder then .nested single else .flat
    | _ => .flat

/-- Structure detection as the specification words it (claim C4): exactly one
distinct first path segment, and at least one entry having that segment as
a prefix followed by `/`. -/
def specAnalyzeZipStructure (fileList : List EntryName) : ZipStructure :=
  if fileList = [] then .unknown
  else
    match (fileList.map firstSeg).dedup with
    | [single] =>
        if fileList.any fun e => (single ++ ['/']).isPrefixOf e
        then .nested single else .flat
    | _ => .flat

/-- Python `item.endswith('/')`. -/
def endsWithSlash (s : EntryName) : Bool :=
  s.getLast? == some '/'

/-- The entry-copy loop of `convert_nested_to_flat` (lines 732-745): skip the
wrapping folder marker itself, and copy every entry that starts with
`folder_name + '/'` when the stripped name is nonempty and the entry is not
a directory marker. -/
def convertEntriesToFlat (folderName : EntryName) (entries : List (EntryName × Content)) :
    List (EntryName × Content) :=
  entries.filterMap fun e =>
    if rstripSlashes e.1 = folderName then none
    else if (folderName ++ ['/']).isPrefixOf e.1 then
      let newName := e.1.drop (folderName.length + 1)
      if newName ≠ [] ∧ endsWithSlash e.1 = false then some (newName, e.2) else none
    else none

/-- `ZipStructureConverter.convert_nested_to_flat` (lines 714-770): analyze,
return the archive unchanged unless the structure is `nested`, otherwise
rewrite it with the wrapping folder stripped. -/
def convertNestedToFlat (entries : List (EntryName × Content)) :
    List (EntryName × Content) :=
  match analyzeZipStructure (entries.map Prod.fst) with
  | .nested f => convertEntriesToFlat f entries
  | _ => entries

/-- The file entries wrapped by the folder: prefixed by `folder_name + '/'`,
not directory markers, with a nonempty remainder after the prefix. -/
def folderFileEntries (folderName : EntryName) (entries : List (EntryName × Content)) :
    List (EntryName × Content) :=
  entries.filter fun e =>
    (folderName ++ ['/']).isPrefixOf e.1 && !endsWithSlash e.1 &&
      !(e.1.drop (folderName.length + 1)).isEmpty

/-! ### Memory cache (`MemoryCacheManager`, lines 295-334). -/

structure MemoryCacheManager where
  cache : List (String × Content)
  accessCount : List (String × Int)
  maxSize : Nat
deriving DecidableEq, Repr

/-- The cache key `f"{file_path}:{inner_path}"`. -/
def mkCacheKey (filePath innerPath : String) : String :=
  filePath ++ ":" ++ innerPath

/-- `MemoryCacheManager.get_cached_content` (lines 304-311): on a hit the
access counter is bumped; on a miss nothing changes. -/
def getCachedContent (m : MemoryCacheManager) (filePath innerPath : String) :
    Option Content × MemoryCacheManager :=
  let key := mkCacheKey filePath innerPath
  match alistGet? m.cache key with
  | some content =>
      (some content,
       { m with accessCount :=
           alistSet m.accessCount key ((alistGet? m.accessCount key).getD 0 + 1) })
  | none => (none, m)

/-- Python `min(keys, key=count)`: the first entry attaining the minimal
count wins (`<` replaces the running best only when strictly smaller). -/
def minAccessEntry (best : String × Int) : List (String × Int) → String × Int
  | [] => best
  | p :: rest => minAccessEntry (if p.2 < best.2 then p else best) rest

/-- `MemoryCacheManager._evict_least_used` (lines 324-334). -/
def evictLeastUsed (m : MemoryCacheManager) : MemoryCacheManager :=
  match m.accessCount with
  | [] => m
  | p :: rest =>
      let k := (minAccessEntry p rest).1
      { m with cache := alistErase m.cache k, accessCount := alistErase m.accessCount k }

/-- `MemoryCacheManager.cache_content` (lines 313-322): evict first when the
cache already holds `max_size` entries, then insert with counter 1. -/
def cacheContent (m : MemoryCacheManager) (filePath innerPath : String)
    (content : Content) : MemoryCacheManager :=
  let key := mkCacheKey filePath innerPath
  let m1 := if m.maxSize ≤ m.cache.length then evictLeastUsed m else m
  { m1 with cache := alistSet m1.cache key content,
            accessCount := alistSet m1.accessCount key 1 }

inductive CacheOp
  | get (filePath innerPath : String)
  | put (filePath innerPath : String) (content : Content)
deriving DecidableEq, Repr

def applyCacheOp (m : MemoryCacheManager) : CacheOp → MemoryCacheManager
  | .get fp ip => (getCachedContent m fp ip).2
  | .put fp ip c => cacheContent m fp ip c

/-- A fresh manager (constructor, lines 298-302) after a sequence of
get/put operations. -/
def runCacheOps (maxSize : Nat) (ops : List CacheOp) : MemoryCacheManager :=
  ops.foldl applyCacheOp { cache := [], accessCount := [], maxSize := maxSize }

/-! ### Disk throttle (`DiskIOController`, lines 338-369).  Times, rates and
byte counters are rationals; the returned value is the duration passed to
`time.sleep` (0 when no sleep happens). -/

structure DiskIOController where
  maxSpeed : Rat
  lastCheckTime : Rat
  bytesProcessed : Rat
deriving DecidableEq, Repr

/-- `DiskIOController.throttle_io` (lines 347-369), with the current clock
reading as an explicit argument. -/
def throttleIo (st : DiskIOController) (bytesCount : Rat) (currentTime : Rat) :
    DiskIOController × Rat :=
  if st.maxSpeed ≤ 0 then (st, 0)
  else
    let bp := st.bytesProcessed + bytesCount
    let elapsed := currentTime - st.lastCheckTime
    if 1 ≤ elapsed then
      let actualSpeed := bp / elapsed
      let sleepTime :=
        if st.maxSpeed < actualSpeed then
          let excessBytes := bp - st.maxSpeed * elapsed
          let waitTime := if 0 < st.maxSpeed then excessBytes / st.maxSpeed else 0
          if 0 < waitTime then min waitTime (1 / 10) else 0
        else 0
      ({ st with bytesProcessed := 0, lastCheckTime := currentTime }, sleepTime)
    else ({ st with bytesProcessed := bp }, 0)

/-! ### Crash-atomicity of the archive rewrites (claim C2).  The commit
sequences of `process_zip_file` (write `.tmp`, `os.remove(zip_path)`,
`os.rename(temp_zip, zip_path)`, lines 1507-1526) and of
`_update_cbz_content` (the same sequence, lines 1434-1461) are modelled as
atomic filesystem steps; a crash stops the sequence after a prefix. -/

structure FsState where
  original : Option Content
  temp : Option Content
deriving DecidableEq, Repr

inductive CommitStep
  | writeTemp (c : Content)
  | removeOriginal
  | renameTempToOriginal
deriving DecidableEq, Repr

def applyCommitStep (s : FsState) : CommitStep → FsState
  | .writeTemp c => { s with temp := some c }
  | .removeOriginal => { s with original := none }
  | .renameTempToOriginal => { original := s.temp, temp := none }

/-- The commit sequence both rewrite paths execute after building the new
archive bytes: write the `.tmp` file, delete the original, rename. -/
def commitSequence (newContent : Content) : List CommitStep :=
  [.writeTemp newContent, .removeOriginal, .renameTempToOriginal]

/-- State after the process stops once the first `k` steps have executed. -/
def crashAfter (s0 : FsState) (newContent : Content) (k : Nat) : FsState :=
  ((commitSequence newContent).take k).foldl applyCommitStep s0

/-- The exception handler of both rewrite paths (lines 1544-1549 and
1466-1472): remove the `.tmp` file, leave everything else alone. -/
def writeFailureCleanup (s : FsState) : FsState :=
  { s with temp := none }

/-! ### Tag translator (`Translator`, lines 373-454).  The dictionary and
its reverse dictionary are association lists keyed by stripped tag text. -/

structure Translator where
  translationDict : List (EntryName × EntryName)
  reverseDict : List (EntryName × EntryName)
deriving Repr

/-- Python `tag.strip()` (whitespace trim on both ends). -/
def stripTag (s : EntryName) : EntryName :=
  ((s.dropWhile Char.isWhitespace).reverse.dropWhile Char.isWhitespace).reverse

/-- `Translator.translate_tag` (lines 417-438): empty tags count as
translated; a tag already present in the reverse dictionary is returned
stripped; otherwise the dictionary is consulted, and a miss returns the
stripped tag with `found = False`. -/
def translateTag (tr : Translator) (tag : EntryName) : EntryName × Bool :=
  if tag = [] then (tag, true)
  else
    let clean := stripTag tag
    if (alistGet? tr.reverseDict clean).isSome then (clean, true)
    else
      match alistGet? tr.translationDict clean with
      | some v => (v, true)
      | none => (clean, false)

/-- `Translator.translate_tags_list` (lines 440-454). -/
def translateTagsList (tr : Translator) (tags : List EntryName) :
    List EntryName × Bool :=
  if tags = [] then (tags, true)
  else
    tags.foldl
      (fun acc tag =>
        let r := translateTag tr tag
        (acc.1 ++ [r.1], acc.2 && r.2))
      ([], true)

/-- Python `[tag.strip() for tag in s.split(',') if tag.strip()]`. -/
def splitCommaStrip (s : EntryName) : List EntryName :=
  ((s.splitOn ',').map stripTag).filter (· ≠ [])

def joinCommaSpace (parts : List EntryName) : EntryName :=
  List.intercalate (',' :: [' ']) parts

/-! ### Archive metadata content seen by the translation phase.  The two
reserved entries are reduced to the data `_translate_content` reads:
the `tags` field of `metadata.json` (a list or a comma-joined string) and
the text of the `Tags` element of `ComicInfo.xml`. -/

inductive JsonTags
  | tlist (tags : List EntryName)
  | tstr (s : EntryName)
  | notags
deriving DecidableEq, Repr

structure XmlInfo where
  tagsText : Option EntryName
deriving DecidableEq, Repr

structure ArchiveMeta where
  metadataJson : Option JsonTags
  comicInfo : Option XmlInfo
deriving DecidableEq, Repr

/-- `ZipMetadataAdder._translate_content` (lines 1383-1424): translate the
JSON tags and the XML tags independently; each part is rewritten only when
all of its own tags were found, and the returned flag says whether every
tag of both parts was found. -/
def translateContent (tr : Translator) (m : ArchiveMeta) : ArchiveMeta × Bool :=
  let jsonStep : Option JsonTags × Bool :=
    match m.metadataJson with
    | some (.tlist tags) =>
        let r := translateTagsList tr tags
        if r.2 then (some (.tlist r.1), true) else (some (.tlist tags), false)
    | some (.tstr s) =>
        let tagsList := splitCommaStrip s
        let r := translateTagsList tr tagsList
        if r.2 then (some (.tstr (joinCommaSpace r.1)), true)
        else (some (.tstr s), false)
    | some .notags => (some .notags, true)
    | none => (none, true)
  let xmlStep : Option XmlInfo × Bool :=
    match m.comicInfo with
    | some xi =>
        match xi.tagsText with
        | some txt =>
            if txt ≠ [] then
              let tagsList := splitCommaStrip txt
              let r := translateTagsList tr tagsList
              if r.2 then (some ⟨some (joinCommaSpace r.1)⟩, true)
              else (some xi, false)
            else (some xi, true)
        | none => (some xi, true)
    | none => (none, true)
  ({ metadataJson := jsonStep.1, comicInfo := xmlStep.1 }, jsonStep.2 && xmlStep.2)

/-- Result of `translate_metadata_in_cbz`:  the returned boolean, the task
after the translation-status update, the archive metadata on disk after the
call, and whether `_update_cbz_content` ran. -/
structure TranslateResult where
  ok : Bool
  task : TaskRecord
  archive : ArchiveMeta
  wroteArchive : Bool
deriving Repr

/-- `ZipMetadataAdder.translate_metadata_in_cbz` (lines 1279-1381): when a
metadata entry exists, translate; commit the rewritten entries only when
every tag was found and not in dry-run; record the translation status. -/
def translateMetadataInCbz (tr : Translator) (dryRun : Bool) (t : TaskRecord)
    (filename : String) (m : ArchiveMeta) (now : String) : TranslateResult :=
  if m.metadataJson.isSome || m.comicInfo.isSome then
    let r := translateContent tr m
    if r.2 && !dryRun then
      { ok := true,
        task := updateFileTranslationStatus t filename .success "" now,
        archive := r.1, wroteArchive := true }
    else if !r.2 then
      { ok := false,
        task := updateFileTranslationStatus t filename .failed "存在未翻译的标签" now,
        archive := m, wroteArchive := false }
    else
      { ok := true,
        task := updateFileTranslationStatus t filename .success "" now,
        archive := m, wroteArchive := false }
  else
    { ok := false,
      task := updateFileTranslationStatus t filename .failed "未找到元数据文件" now,
      archive := m, wroteArchive := false }

/-! ### Filename pattern (`ZipMetadataAdder.FILENAME_PATTERN`, line 1259):
`^\[(\d{6})\](.+)\.(zip|cbz)$` with `re.IGNORECASE`, used by `extract_id`
(lines 1273-1277).  `.` does not match a newline, and `$` also matches just
before a single final newline; `\d` is modelled as an ASCII digit. -/

def extOk (ext : List Char) : Prop :=
  ext.map Char.toLower = "zip".data ∨ ext.map Char.toLower = "cbz".data

instance (ext : List Char) : Decidable (extOk ext) := by
  unfold extOk; infer_instance

/-- Match the pattern against a character list, returning the six-digit
group on success. -/
def reMatchChars (s : List Char) : Option (List Char) :=
  let core := if s.getLast? = some '\n' then s.dropLast else s
  match core with
  | [] => none
  | c0 :: rest =>
      if c0 = '[' then
        let d6 := rest.take 6
        if d6.length = 6 ∧ d6.all Char.isDigit then
          match rest.drop 6 with
          | [] => none
          | c1 :: tail =>
              if c1 = ']' then
                let n := tail.length
                if 5 ≤ n then
                  let name := tail.take (n - 4)
                  match tail.drop (n - 4) with
                  | [] => none
                  | c2 :: ext =>
                      if c2 = '.' then
                        if extOk ext ∧ name ≠ [] ∧ name.contains '\n' = false
                        then some d6 else none
                      else none
                else none
              else none
        else none
      else none

/-- `ZipMetadataAdder.extract_id`. -/
def extractId (filename : String) : Option (List Char) :=
  reMatchChars filename.data

/-! ### The per-file pipeline (`ZipMetadataAdder.process_file`,
lines 1552-1612).  External effects are oracles: whether `parser.parse`
returns metadata, whether `process_zip_file` succeeds and which new path it
returns.  The call trace records the externally visible actions. -/

inductive PipelineEvent
  | fetchMetadata
  | rewriteArchive
  | translateArchive
  | updateStatus (s : Status)
deriving DecidableEq, Repr

/-- Outcomes of the external calls made by `process_file`. -/
structure PipelineOracle where
  metadataOk : Bool
  rewriteOk : Bool
  newPath : Option String
deriving DecidableEq, Repr

structure ProcessFileResult where
  task : TaskRecord
  archive : ArchiveMeta
  ret : Bool
  trace : List PipelineEvent
deriving Repr

/-- `ZipMetadataAdder.process_file`: extract the id (mismatch → `skipped`,
nothing else runs); fetch metadata (failure → `failed`); rewrite the
archive; run the translation phase when the rewrite succeeded; the final
status is `success` exactly when both phases succeeded, and on a `.cbz`
rename the file record moves to the new name. -/
def processFile (tr : Translator) (dryRun : Bool) (oracle : PipelineOracle)
    (t : TaskRecord) (archivePath filename : String) (m : ArchiveMeta)
    (now : String) : ProcessFileResult :=
  if (extractId filename).isNone then
    { task := updateFileStatus t filename .skipped "文件名格式不符合" now,
      archive := m, ret := false, trace := [.updateStatus .skipped] }
  else if !oracle.metadataOk then
    { task := updateFileStatus t filename .failed "获取元数据失败" now,
      archive := m, ret := false,
      trace := [.fetchMetadata, .updateStatus .failed] }
  else if oracle.rewriteOk then
    let tres := translateMetadataInCbz tr dryRun t filename m now
    if tres.ok then
      match oracle.newPath with
      | some newPath =>
          if newPath ≠ archivePath then
            let t2 := updateFileStatus tres.task filename .success "" now
            let t3 :=
              match alistGet? t2.files filename with
              | some fi =>
                  { t2 with files := alistSet (alistErase t2.files filename) newPath fi }
              | none => t2
            { task := t3, archive := tres.archive, ret := true,
              trace := [.fetchMetadata, .rewriteArchive, .translateArchive,
                        .updateStatus .success] }
          else
            { task := updateFileStatus tres.task filename .success "" now,
              archive := tres.archive, ret := true,
              trace := [.fetchMetadata, .rewriteArchive, .translateArchive,
                        .updateStatus .success] }
      | none =>
          { task := updateFileStatus tres.task filename .success "" now,
            archive := tres.archive, ret := true,
            trace := [.fetchMetadata, .rewriteArchive, .translateArchive,
                      .updateStatus .success] }
    else
      { task := updateFileStatus tres.task filename .failed "翻译失败" now,
        archive := tres.archive, ret := false,
        trace := [.fetchMetadata, .rewriteArchive, .translateArchive,
                  .updateStatus .failed] }
  else
    { task := updateFileStatus t filename .failed "处理文件失败" now,
      archive := m, ret := false,
      trace := [.fetchMetadata, .rewriteArchive, .updateStatus .failed] }

/-! ### Task-level driver (`ZipMetadataAdder.process_task`,
lines 1833-1862): select the pending (or, on retry, failed) files and stop
immediately when the selection is empty.  The per-file work is an abstract
step function, since claim C7 only concerns the empty selection. -/

def processTask (t : TaskRecord) (retryFailed : Bool)
    (processOne : TaskRecord → String → TaskRecord) : TaskRecord × Nat :=
  let filesToProcess := if retryFailed then getFailedFiles t else getPendingFiles t
  if filesToProcess.isEmpty then (t, 0)
  else (filesToProcess.foldl processOne t, filesToProcess.length)

/-! ### Auxiliary definitions used by the theorems below. -/

/-- The empty registered task: no files, all counters zero. -/
def c1EmptyTask : TaskRecord :=
  { files := [],
    statistics := { total := 0, success := 0, failed := 0, skipped := 0,
                    pending := 0, translation := none },
    updatedAt := "" }

/-- C1 (witness): the preserved-partition theorem applied to a concrete
one-file task. -/
def c1OneFileTask : TaskRecord :=
  { files := [("a.zip", freshFileRecord)],
    statistics := { total := 1, success := 0, failed := 0, skipped := 0,
                    pending := 1, translation := none },
    updatedAt := "" }

/-- C7 (witness): a one-file all-success task is untouched even by a
destructive per-file step. -/
def c7Task : TaskRecord :=
  { files := [("a.zip", { freshFileRecord with status := .success })],
    statistics := { total := 1, success := 1, failed := 0, skipped := 0,
                    pending := 0, translation := none },
    updatedAt := "" }

/-- The three-entry nested archive used as a concrete conversion input. -/
def c5Entries : List (EntryName × Content) :=
  [(['a', '/', 'x'], [1]), (['a', '/'], []), (['a', '/', 'y'], [2])]

def cacheInv (m : MemoryCacheManager) : Prop :=
  m.cache.map Prod.fst = m.accessCount.map Prod.fst ∧
  m.cache.length ≤ m.maxSize ∧ 1 ≤ m.maxSize

/-- Every tag the translation phase reads from the archive's metadata:
the `tags` field of `metadata.json` (split on commas when a string) and
the comma-separated text of the `Tags` element of `ComicInfo.xml`. -/
def archiveTags (m : ArchiveMeta) : List EntryName :=
  (match m.metadataJson with
   | some (.tlist tags) => tags
   | some (.tstr s) => splitCommaStrip s
   | _ => []) ++
  (match m.comicInfo with
   | some xi =>
       match xi.tagsText with
       | some txt => splitCommaStrip txt
       | none => []
   | none => [])

/-- A tag lacks a translation: it is nonempty, it is not already a
translation (reverse dictionary), and the dictionary has no entry for it. -/
def tagLacksTranslation (tr : Translator) (tag : EntryName) : Prop :=
  tag ≠ [] ∧ alistGet? tr.reverseDict (stripTag tag) = none ∧
    alistGet? tr.translationDict (stripTag tag) = none

/-- The empty translator (no dictionary entries). -/
def c3Translator : Translator :=
  { translationDict := [], reverseDict := [] }

/-- An archive whose `metadata.json` carries the single tag `x`. -/
def c3Meta : ArchiveMeta :=
  { metadataJson := some (.tlist [['x']]), comicInfo := none }

/-- An archive carrying an empty tags field (nothing to translate). -/
def c3MetaEmpty : ArchiveMeta :=
  { metadataJson := some .notags, comicInfo := none }

/-! ### Association-list lemmas. -/

theorem alistGet?_alistSet_self {κ α : Type} [DecidableEq κ]
    (l : List (κ × α)) (k : κ) (v : α) :
    alistGet? (alistSet l k v) k = some v := by
  induction l with
  | nil => simp [alistSet, alistGet?]
  | cons p rest ih =>
      by_cases h : p.1 = k
      · simp [alistSet, alistGet?, h]
      · simp [alistSet, alistGet?, h, ih]

theorem alistGet?_append_absent {κ α : Type} [DecidableEq κ]
    (l : List (κ × α)) (k : κ) (v : α) (h : alistGet? l k = none) :
    alistGet? (l ++ [(k, v)]) k = some v := by
  induction l with
  | nil => simp [alistGet?]
  | cons p rest ih =>
      by_cases hpk : p.1 = k
      · simp [alistGet?, hpk] at h
      · simp only [alistGet?, hpk] at h
        simp [alistGet?, hpk, ih h]

theorem alistSet_length_present {κ α : Type} [DecidableEq κ]
    (l : List (κ × α)) (k : κ) (v : α) (h : (alistGet? l k).isSome) :
    (alistSet l k v).length = l.length := by
  induction l with
  | nil => simp [alistGet?] at h
  | cons p rest ih =>
      by_cases hpk : p.1 = k
      · simp [alistSet, hpk]
      · simp only [alistGet?, hpk, if_false] at h
        simp [alistSet, hpk, ih h]

theorem alistGet?_isSome_of_eq_some {κ α : Type} [DecidableEq κ]
    {l : List (κ × α)} {k : κ} {v : α} (h : alistGet? l k = some v) :
    (alistGet? l k).isSome := by
  simp [h]

/-! ### Statistics lemmas (claim C1). -/

theorem statField_updateStatistics (st : Statistics) (o n s : Status) :
    statField (updateStatistics st o n) s =
      statField st s - (if o = s then 1 else 0) + (if n = s then 1 else 0) := by
  cases o <;> cases n <;> cases s <;>
    simp [updateStatistics, statField]

theorem countStatus_alistSet (l : List (String × FileRecord)) (k : String)
    (r v : FileRecord) (s : Status) (h : alistGet? l k = some r) :
    (countStatus (alistSet l k v) s : Int) =
      (countStatus l s : Int) - (if r.status = s then 1 else 0)
        + (if v.status = s then 1 else 0) := by
  induction l with
  | nil => simp [alistGet?] at h
  | cons p rest ih =>
      by_cases hpk : p.1 = k
      · simp only [alistGet?, hpk, if_pos rfl] at h
        cases h
        simp only [alistSet, hpk, if_pos rfl, countStatus]
        push_cast
        omega
      · simp only [alistGet?, hpk, if_false] at h
        simp only [alistSet, hpk, if_false, countStatus]
        push_cast
        push_cast at ih
        have := ih h
        omega

theorem countStatus_total (l : List (String × FileRecord)) :
    countStatus l .pending + countStatus l .success + countStatus l .failed
      + countStatus l .skipped = l.length := by
  induction l with
  | nil => simp [countStatus]
  | cons p rest ih =>
      have hc : p.2.status = Status.pending ∨ p.2.status = Status.success ∨
          p.2.status = Status.failed ∨ p.2.status = Status.skipped := by
        cases p.2.status <;> simp
      simp only [countStatus, List.length_cons]
      rcases hc with h | h | h | h <;> simp [h] <;> omega

theorem sumStats_of_statsExact (t : TaskRecord) (h : statsExact t) :
    sumStats t.statistics = (t.files.length : Int) := by
  have htot := countStatus_total t.files
  have hp := h .pending
  have hs := h .success
  have hf := h .failed
  have hk := h .skipped
  simp only [statField] at hp hs hf hk
  simp only [sumStats, hp, hs, hf, hk]
  omega

/-- Unfolding of `update_file_status` when the filename is already present. -/
theorem updateFileStatus_present (t : TaskRecord) (filename : String)
    (status : Status) (errorMsg now : String) (r : FileRecord)
    (hr : alistGet? t.files filename = some r) :
    updateFileStatus t filename status errorMsg now =
      { t with
        files := alistSet t.files filename
          { r with status := status, error := errorMsg, updatedAt := now },
        statistics := updateStatistics t.statistics r.status status,
        updatedAt := now } := by
  simp [updateFileStatus, hr]

/-- C1 (amended): a status mutation through `update_file_status` on a
filename already present in the files map preserves the exact partition:
afterwards every counter equals the number of files with that status, and
the counters sum to `len(files)`. -/
theorem updateFileStatus_preserves_statistics (t : TaskRecord) (filename : String)
    (status : Status) (errorMsg now : String)
    (hmem : (alistGet? t.files filename).isSome) (hex : statsExact t) :
    statsExact (updateFileStatus t filename status errorMsg now) ∧
      sumStats (updateFileStatus t filename status errorMsg now).statistics =
        ((updateFileStatus t filename status errorMsg now).files.length : Int) := by
  obtain ⟨r, hr⟩ := Option.isSome_iff_exists.mp hmem
  have hexact : statsExact (updateFileStatus t filename status errorMsg now) := by
    intro s
    rw [updateFileStatus_present t filename status errorMsg now r hr]
    show statField (updateStatistics t.statistics r.status status) s =
      (countStatus (alistSet t.files filename
        { r with status := status, error := errorMsg, updatedAt := now }) s : Int)
    rw [statField_updateStatistics,
        countStatus_alistSet t.files filename r _ s hr]
    dsimp only
    have := hex s
    split_ifs <;> omega
  exact ⟨hexact, sumStats_of_statsExact _ hexact⟩

/-- C1 (counterexample): starting from a task whose counters partition its
files exactly, one `update_file_status` call on a filename not in the files
map leaves the counters summing to `len(files) - 1`, not `len(files)` (the
fresh record is counted as a pending-to-new transition, never as an added
file). -/
theorem c1_counterexample :
    statsExact c1EmptyTask ∧
      sumStats (updateFileStatus c1EmptyTask "x" .success "" "t1").statistics ≠
        ((updateFileStatus c1EmptyTask "x" .success "" "t1").files.length : Int) := by
  constructor
  · intro s; cases s <;> rfl
  · decide

theorem updateFileStatus_preserves_statistics_witness :
    statsExact (updateFileStatus c1OneFileTask "a.zip" .success "" "t1") ∧
      sumStats (updateFileStatus c1OneFileTask "a.zip" .success "" "t1").statistics =
        ((updateFileStatus c1OneFileTask "a.zip" .success "" "t1").files.length : Int) :=
  updateFileStatus_preserves_statistics c1OneFileTask "a.zip" .success "" "t1"
    (by decide) (by intro s; cases s <;> rfl)

/-! ### Claim C10: updates on a filename absent from the files map. -/

/-- Unfolding of `update_file_status` when the filename is absent: a fresh
pending record is appended and the transition applied to it. -/
theorem updateFileStatus_absent (t : TaskRecord) (filename : String)
    (status : Status) (errorMsg now : String)
    (h : alistGet? t.files filename = none) :
    (updateFileStatus t filename status errorMsg now).files =
      alistSet (t.files ++ [(filename, freshFileRecord)]) filename
        { freshFileRecord with status := status, error := errorMsg, updatedAt := now } ∧
    (updateFileStatus t filename status errorMsg now).statistics =
      updateStatistics t.statistics .pending status := by
  have happ := alistGet?_append_absent t.files filename freshFileRecord h
  refine ⟨?_, ?_⟩
  · simp [updateFileStatus, h, happ]
  · simp [updateFileStatus, h, happ]
    rfl

/-- Unfolding of `update_file_translation_status` when the filename is
absent. -/
theorem updateFileTranslationStatus_absent (t : TaskRecord) (filename : String)
    (status : TrStatus) (errorMsg now : String)
    (h : alistGet? t.files filename = none) :
    (updateFileTranslationStatus t filename status errorMsg now).files =
      alistSet (t.files ++ [(filename, freshFileRecord)]) filename
        { freshFileRecord with translationStatus := status,
                               translationError := errorMsg, updatedAt := now } := by
  have happ := alistGet?_append_absent t.files filename freshFileRecord h
  simp [updateFileTranslationStatus, h, happ]

/-- C10: for a filename not in the files map, `update_file_status` and
`update_file_translation_status` do not reject the call: each appends a
brand-new record (initialized pending) and then applies the requested
transition, so the files map grows by exactly one entry. -/
theorem updateStatus_inserts_missing_filename (t : TaskRecord) (filename : String)
    (status : Status) (trStatus : TrStatus) (errorMsg now : String)
    (h : alistGet? t.files filename = none) :
    ((updateFileStatus t filename status errorMsg now).files.length =
        t.files.length + 1 ∧
      alistGet? (updateFileStatus t filename status errorMsg now).files filename =
        some { freshFileRecord with status := status, error := errorMsg,
                                    updatedAt := now }) ∧
    ((updateFileTranslationStatus t filename trStatus errorMsg now).files.length =
        t.files.length + 1 ∧
      alistGet? (updateFileTranslationStatus t filename trStatus errorMsg now).files
          filename =
        some { freshFileRecord with translationStatus := trStatus,
                                    translationError := errorMsg,
                                    updatedAt := now }) := by
  have happ := alistGet?_append_absent t.files filename freshFileRecord h
  have hsome : (alistGet? (t.files ++ [(filename, freshFileRecord)]) filename).isSome := by
    simp [happ]
  refine ⟨⟨?_, ?_⟩, ⟨?_, ?_⟩⟩
  · rw [(updateFileStatus_absent t filename status errorMsg now h).1]
    rw [alistSet_length_present _ _ _ hsome]
    simp
  · rw [(updateFileStatus_absent t filename status errorMsg now h).1]
    exact alistGet?_alistSet_self _ _ _
  · rw [updateFileTranslationStatus_absent t filename trStatus errorMsg now h]
    rw [alistSet_length_present _ _ _ hsome]
    simp
  · rw [updateFileTranslationStatus_absent t filename trStatus errorMsg now h]
    exact alistGet?_alistSet_self _ _ _

/-- C10 (witness): inserting `"b.zip"` into the one-file task. -/
theorem updateStatus_inserts_missing_filename_witness :
    ((updateFileStatus c1OneFileTask "b.zip" .failed "e" "t2").files.length =
        c1OneFileTask.files.length + 1 ∧
      alistGet? (updateFileStatus c1OneFileTask "b.zip" .failed "e" "t2").files "b.zip" =
        some { freshFileRecord with status := .failed, error := "e",
                                    updatedAt := "t2" }) ∧
    ((updateFileTranslationStatus c1OneFileTask "b.zip" .failed "e" "t2").files.length =
        c1OneFileTask.files.length + 1 ∧
      alistGet? (updateFileTranslationStatus c1OneFileTask "b.zip" .failed "e" "t2").files
          "b.zip" =
        some { freshFileRecord with translationStatus := .failed,
                                    translationError := "e",
                                    updatedAt := "t2" }) :=
  updateStatus_inserts_missing_filename c1OneFileTask "b.zip" .failed .failed "e" "t2"
    (by decide)

/-! ### Claim C7: re-running over an all-success task. -/

/-- C7: when every file of the task is `success`, `get_pending_files`
selects nothing and `process_task` returns before touching the task, so
the statistics are unchanged. -/
theorem processTask_noop_on_all_success (t : TaskRecord)
    (processOne : TaskRecord → String → TaskRecord)
    (h : ∀ p ∈ t.files, p.2.status = Status.success) :
    getPendingFiles t = [] ∧
      processTask t false processOne = (t, 0) ∧
      (processTask t false processOne).1.statistics = t.statistics := by
  have hsel : getPendingFiles t = [] := by
    unfold getPendingFiles
    rw [List.filter_eq_nil_iff.mpr, List.map_nil]
    intro p hp
    simp [h p hp]
  refine ⟨hsel, ?_, ?_⟩ <;> simp [processTask, hsel]

theorem processTask_noop_on_all_success_witness :
    getPendingFiles c7Task = [] ∧
      processTask c7Task false
        (fun t f => updateFileStatus t f .failed "x" "t9") = (c7Task, 0) ∧
      (processTask c7Task false
        (fun t f => updateFileStatus t f .failed "x" "t9")).1.statistics =
        c7Task.statistics :=
  processTask_noop_on_all_success c7Task _ (by decide)

/-! ### Claim C2: crash-atomicity of the rewrite commit. -/

/-- C2 (counterexample): the commit is `os.remove(zip_path)` followed by
`os.rename(temp_zip, zip_path)`.  A crash after the remove — a point
strictly between the temp-write and the final rename — leaves no file at
the archive path, so the original is not byte-identical to its pre-attempt
content. -/
theorem processZipFile_crash_counterexample :
    (crashAfter { original := some [1], temp := none } [2] 2).original ≠
      some [1] := by
  decide

/-- C2 (amended): a crash before the original is deleted leaves the
original byte-identical; between the delete and the rename the archive
path holds no file at all while the complete new content survives at the
`.tmp` path; after the rename the archive path holds the complete new
content; the archive path never holds a partially written archive; and an
exception during the write phase deletes the temp file and leaves the
original untouched. -/
theorem processZipFile_commit_crash_states (s0 : FsState) (c : Content) :
    crashAfter s0 c 0 = s0 ∧
    (crashAfter s0 c 1).original = s0.original ∧
    (crashAfter s0 c 2).original = none ∧
    (crashAfter s0 c 2).temp = some c ∧
    crashAfter s0 c 3 = { original := some c, temp := none } ∧
    (∀ k : Nat, (crashAfter s0 c k).original = s0.original ∨
      (crashAfter s0 c k).original = none ∨
      (crashAfter s0 c k).original = some c) ∧
    (writeFailureCleanup (applyCommitStep s0 (.writeTemp c))).original =
      s0.original ∧
    (writeFailureCleanup (applyCommitStep s0 (.writeTemp c))).temp = none := by
  refine ⟨rfl, rfl, rfl, rfl, rfl, ?_, rfl, rfl⟩
  intro k
  match k with
  | 0 => exact Or.inl rfl
  | 1 => exact Or.inl rfl
  | 2 => exact Or.inr (Or.inl rfl)
  | (n + 3) =>
      refine Or.inr (Or.inr ?_)
      have htake : (commitSequence c).take (n + 3) = commitSequence c :=
        List.take_of_length_le (by simp [commitSequence])
      simp [crashAfter, htake, commitSequence, applyCommitStep]

/-! ### Claim C9: throttle no-op mode and sleep cap. -/

/-- C9: with a configured rate of 0 or less, `throttle_io` changes nothing
and requests no sleep; under any configuration, the sleep requested by a
single call never exceeds 100 ms (1/10 s). -/
theorem throttleIo_noop_and_capped (st : DiskIOController)
    (bytesCount currentTime : Rat) :
    (st.maxSpeed ≤ 0 → throttleIo st bytesCount currentTime = (st, 0)) ∧
      (throttleIo st bytesCount currentTime).2 ≤ 1 / 10 := by
  constructor
  · intro h
    simp [throttleIo, h]
  · unfold throttleIo
    split_ifs with h0
    · norm_num
    all_goals
      rw [apply_ite Prod.snd]
      dsimp only
      split_ifs <;> first
        | exact inf_le_right
        | norm_num

/-! ### Claim C4: structure-detection lemmas. -/

theorem firstSeg_no_slash (s : List Char) : '/' ∉ firstSeg s := by
  intro h
  have := List.mem_takeWhile_imp h
  simp at this

theorem firstSeg_append_slash (l1 l2 : List Char) (h1 : '/' ∉ l1) :
    firstSeg (l1 ++ '/' :: l2) = l1 := by
  induction l1 with
  | nil => simp [firstSeg]
  | cons c cs ih =>
      have hc : c ≠ '/' := fun h => h1 (by simp [h])
      have h1' : '/' ∉ cs := fun h => h1 (List.mem_cons_of_mem _ h)
      have hcb : (decide (c ≠ '/')) = true := by simp [hc]
      have ih' := ih h1'
      unfold firstSeg at ih' ⊢
      simp only [List.cons_append, List.takeWhile_cons, hcb, if_true]
      exact congrArg (List.cons c) ih'

theorem contains_slash_decomp (s : List Char) (h : s.contains '/' = true) :
    ∃ r, s = firstSeg s ++ '/' :: r := by
  induction s with
  | nil => simp at h
  | cons c cs ih =>
      by_cases hc : c = '/'
      · exact ⟨cs, by simp [hc, firstSeg]⟩
      · have h' : cs.contains '/' = true := by
          simp [List.contains, List.elem_iff] at h ⊢
          rcases h with h | h
          · exact absurd h.symm hc
          · exact h
        obtain ⟨r, hr⟩ := ih h'
        refine ⟨r, ?_⟩
        have : firstSeg (c :: cs) = c :: firstSeg cs := by
          simp [firstSeg, hc]
        rw [this, List.cons_append, ← hr]

theorem head?_dropWhile_not (p : Char → Bool) (l : List Char) (x : Char)
    (h : (l.dropWhile p).head? = some x) : p x = false := by
  induction l with
  | nil => simp [List.dropWhile] at h
  | cons c cs ih =>
      by_cases hc : p c
      · rw [List.dropWhile_cons_of_pos hc] at h
        exact ih h
      · rw [List.dropWhile_cons_of_neg hc] at h
        simp at h
        subst h
        simpa using hc

theorem rstripSlashes_not_slash_end (s : List Char) :
    endsWithSlash (rstripSlashes s) = false := by
  unfold endsWithSlash rstripSlashes
  rw [List.getLast?_reverse]
  rcases hh : (s.reverse.dropWhile (· = '/')).head? with _ | x
  · simp
  · have := head?_dropWhile_not _ _ _ hh
    simp [hh]
    intro he
    subst he
    simp at this

theorem rstripSlashes_eq_self (s : List Char) (h : endsWithSlash s = false) :
    rstripSlashes s = s := by
  unfold rstripSlashes
  unfold endsWithSlash at h
  rcases hs : s.reverse with _ | ⟨c, cs⟩
  · have : s = [] := by simpa using congrArg List.reverse hs
    simp [this]
  · have hc : c ≠ '/' := by
      intro he
      have : s.getLast? = some '/' := by
        rw [← List.head?_reverse, hs, he]
        rfl
      simp [this] at h
    rw [List.dropWhile_cons_of_neg (by simpa using hc)]
    rw [← hs, List.reverse_reverse]

theorem mem_rstripSlashes (s : List Char) (a : Char) (h : a ∈ rstripSlashes s) :
    a ∈ s := by
  unfold rstripSlashes at h
  rw [List.mem_reverse] at h
  have := (List.dropWhile_sublist (l := s.reverse) (p := (· = '/'))).mem h
  rwa [List.mem_reverse] at this

theorem mem_rootLevelItems_no_slash (fileList : List (List Char)) (f : List Char)
    (h : f ∈ rootLevelItems fileList) : '/' ∉ f := by
  unfold rootLevelItems at h
  rw [List.mem_dedup] at h
  obtain ⟨x, _, hx⟩ := List.mem_map.mp h
  exact hx ▸ firstSeg_no_slash x

theorem isFolder_iff (fileList : List (List Char)) (f : List Char) (hf : '/' ∉ f) :
    (fileList.any fun item =>
        item.contains '/' && (rstripSlashes item).contains '/' &&
          (firstSeg (rstripSlashes item) == f)) = true ↔
      ∃ e ∈ fileList, ∃ r, r ≠ [] ∧ rstripSlashes e = f ++ '/' :: r := by
  rw [List.any_eq_true]
  constructor
  · rintro ⟨item, hmem, hcond⟩
    simp only [Bool.and_eq_true, beq_iff_eq] at hcond
    obtain ⟨⟨h1, h2⟩, h3⟩ := hcond
    obtain ⟨r, hr⟩ := contains_slash_decomp (rstripSlashes item) h2
    rw [h3] at hr
    refine ⟨item, hmem, r, ?_, hr⟩
    intro hrnil
    subst hrnil
    have hend := rstripSlashes_not_slash_end item
    rw [hr] at hend
    unfold endsWithSlash at hend
    rw [List.getLast?_append_of_ne_nil _ (by simp)] at hend
    simp at hend
  · rintro ⟨e, hmem, r, hrne, hr⟩
    refine ⟨e, hmem, ?_⟩
    have hmem_slash : '/' ∈ rstripSlashes e := by
      rw [hr]
      exact List.mem_append_right _ (List.mem_cons_self _ _)
    have h2 : (rstripSlashes e).contains '/' = true := by
      rwa [List.elem_iff]
    have h1 : e.contains '/' = true := by
      rw [List.elem_iff]
      exact mem_rstripSlashes e '/' hmem_slash
    have h3 : firstSeg (rstripSlashes e) = f := by
      rw [hr]
      exact firstSeg_append_slash f r hf
    simp only [Bool.and_eq_true, beq_iff_eq]
    exact ⟨⟨h1, h2⟩, h3⟩

theorem analyzeZipStructure_characterization (fileList : List (List Char)) :
    (analyzeZipStructure fileList = .unknown ↔ fileList = []) ∧
    (∀ f, analyzeZipStructure fileList = .nested f ↔
      fileList ≠ [] ∧ rootLevelItems fileList = [f] ∧
        ∃ e ∈ fileList, ∃ r, r ≠ [] ∧ rstripSlashes e = f ++ '/' :: r) ∧
    (analyzeZipStructure fileList = .flat ↔
      fileList ≠ [] ∧ ∀ f, ¬(rootLevelItems fileList = [f] ∧
        ∃ e ∈ fileList, ∃ r, r ≠ [] ∧ rstripSlashes e = f ++ '/' :: r)) := by
  by_cases hemp : fileList = []
  · subst hemp
    refine ⟨by simp [analyzeZipStructure], fun f => by simp [analyzeZipStructure],
      by simp [analyzeZipStructure]⟩
  · rcases hroots : rootLevelItems fileList with _ | ⟨single, rest⟩
    · have hval : analyzeZipStructure fileList = .flat := by
        unfold analyzeZipStructure
        rw [if_neg hemp, hroots]
      refine ⟨by simp [hval, hemp], fun f => by simp [hval], by simp [hval, hemp]⟩
    · rcases rest with _ | ⟨b, rest2⟩
      · have hnos := mem_rootLevelItems_no_slash fileList single (by rw [hroots]; simp)
        by_cases hfold : (fileList.any fun item =>
            item.contains '/' && (rstripSlashes item).contains '/' &&
              (firstSeg (rstripSlashes item) == single)) = true
        · have hval : analyzeZipStructure fileList = .nested single := by
            unfold analyzeZipStructure
            rw [if_neg hemp, hroots]
            simp only [hfold, if_true]
          have hex := (isFolder_iff fileList single hnos).mp hfold
          refine ⟨by simp [hval, hemp], ?_, ?_⟩
          · intro f
            constructor
            · intro h
              have hsf : single = f := by
                have h2 := hval.symm.trans h
                injection h2
              subst hsf
              exact ⟨hemp, rfl, hex⟩
            · rintro ⟨-, hr, -⟩
              injection hr with h1 h2
              subst h1
              exact hval
          · constructor
            · intro h
              rw [hval] at h
              exact absurd h (by simp)
            · rintro ⟨-, hall⟩
              exact absurd ⟨rfl, hex⟩ (hall single)
        · have hfalse : (fileList.any fun item =>
              item.contains '/' && (rstripSlashes item).contains '/' &&
                (firstSeg (rstripSlashes item) == single)) = false := by
            rcases hB : (fileList.any fun item =>
              item.contains '/' && (rstripSlashes item).contains '/' &&
                (firstSeg (rstripSlashes item) == single)) with _ | _
            · rfl
            · exact absurd hB hfold
          have hval : analyzeZipStructure fileList = .flat := by
            unfold analyzeZipStructure
            rw [if_neg hemp, hroots]
            simp only [hfalse, Bool.false_eq_true, if_false]
          have hnex : ¬∃ e ∈ fileList, ∃ r, r ≠ [] ∧
              rstripSlashes e = single ++ '/' :: r :=
            fun hx => hfold ((isFolder_iff fileList single hnos).mpr hx)
          refine ⟨by simp [hval, hemp], ?_, ?_⟩
          · intro f
            constructor
            · intro h
              rw [hval] at h
              exact absurd h (by simp)
            · rintro ⟨-, hr, hx⟩
              injection hr with h1 h2
              subst h1
              exact absurd hx hnex
          · refine ⟨fun _ => ⟨hemp, ?_⟩, fun _ => hval⟩
            intro f
            rintro ⟨hr, hx⟩
            injection hr with h1 h2
            subst h1
            exact hnex hx
      · have hval : analyzeZipStructure fileList = .flat := by
          unfold analyzeZipStructure
          rw [if_neg hemp, hroots]
        refine ⟨by simp [hval, hemp], ?_, ?_⟩
        · intro f
          constructor
          · intro h
            rw [hval] at h
            exact absurd h (by simp)
          · rintro ⟨-, hr, -⟩
            simp at hr
        · refine ⟨fun _ => ⟨hemp, ?_⟩, fun _ => hval⟩
          intro f
          rintro ⟨hr, -⟩
          simp at hr

/-- C4 (counterexample): the archive whose only entry is the directory
marker `a/` has exactly one distinct first path segment (`a`) and an entry
with `a` as a prefix followed by `/`, so the claimed algorithm classifies
it `nested` — but `analyze_zip_structure` classifies it `flat` (its
folder test demands a further path component after the slash). -/
theorem analyzeZipStructure_counterexample :
    ([['a', '/']].map firstSeg).dedup = [['a']] ∧
      (['a'] ++ ['/']).isPrefixOf ['a', '/'] = true ∧
      specAnalyzeZipStructure [['a', '/']] = .nested ['a'] ∧
      analyzeZipStructure [['a', '/']] = .flat := by
  decide

/-- C4 (witness): the characterization applied to a two-entry nested
archive. -/
theorem analyzeZipStructure_characterization_witness :
    analyzeZipStructure [['a', '/', 'b'], ['a', '/']] = .nested ['a'] :=
  ((analyzeZipStructure_characterization [['a', '/', 'b'], ['a', '/']]).2.1 ['a']).mpr
    ⟨by decide, by decide, ⟨['a', '/', 'b'], by decide, ['b'], by decide, by decide⟩⟩

/-- C9 (witness): the throttle theorem applied to an unlimited controller
and to a concrete over-rate call. -/
theorem throttleIo_noop_and_capped_witness :
    throttleIo { maxSpeed := 0, lastCheckTime := 0, bytesProcessed := 0 } 5 1 =
      ({ maxSpeed := 0, lastCheckTime := 0, bytesProcessed := 0 }, 0) ∧
    (throttleIo { maxSpeed := 10, lastCheckTime := 0, bytesProcessed := 0 } 1000 2).2 ≤
      1 / 10 :=
  ⟨(throttleIo_noop_and_capped { maxSpeed := 0, lastCheckTime := 0, bytesProcessed := 0 }
      5 1).1 (by norm_num),
   (throttleIo_noop_and_capped { maxSpeed := 10, lastCheckTime := 0, bytesProcessed := 0 }
      1000 2).2⟩

/-! ### Claim C5: nested-to-flat conversion. -/

theorem getLast?_drop_ne_nil (l : List Char) (n : Nat) (h : l.drop n ≠ []) :
    (l.drop n).getLast? = l.getLast? := by
  conv_rhs => rw [← List.take_append_drop n l]
  rw [List.getLast?_append_of_ne_nil _ h]

theorem convertEntriesToFlat_eq (f : EntryName) (entries : List (EntryName × Content)) :
    convertEntriesToFlat f entries =
      (folderFileEntries f entries).map fun e => (e.1.drop (f.length + 1), e.2) := by
  induction entries with
  | nil => rfl
  | cons e rest ih =>
      unfold convertEntriesToFlat folderFileEntries at *
      by_cases hskip : rstripSlashes e.1 = f
      · have hpred : ((f ++ ['/']).isPrefixOf e.1 && !endsWithSlash e.1 &&
            !(e.1.drop (f.length + 1)).isEmpty) = false := by
          by_contra hby
          rw [Bool.not_eq_false, Bool.and_eq_true, Bool.and_eq_true] at hby
          obtain ⟨⟨hpre, hends⟩, hne⟩ := hby
          rw [Bool.not_eq_true'] at hends
          have hself : rstripSlashes e.1 = e.1 := rstripSlashes_eq_self e.1 hends
          rw [hself] at hskip
          have hlen := (List.IsPrefix.length_le (List.isPrefixOf_iff_prefix.mp hpre))
          rw [hskip] at hlen
          simp at hlen
        rw [List.filterMap_cons_none, List.filter_cons_of_neg, ih]
        · simp [hpred]
        · simp [hskip]
      · by_cases hpre : (f ++ ['/']).isPrefixOf e.1
        · by_cases hcopy : e.1.drop (f.length + 1) ≠ [] ∧ endsWithSlash e.1 = false
          · have hpred : ((f ++ ['/']).isPrefixOf e.1 && !endsWithSlash e.1 &&
                !(e.1.drop (f.length + 1)).isEmpty) = true := by
              simp [hpre, hcopy.2, List.isEmpty_iff, hcopy.1]
            rw [List.filterMap_cons_some, List.filter_cons_of_pos, List.map_cons, ih]
            · simp [hpred]
            · simp [hskip, hpre, hcopy]
          · have hpred : ((f ++ ['/']).isPrefixOf e.1 && !endsWithSlash e.1 &&
                !(e.1.drop (f.length + 1)).isEmpty) = false := by
              rw [Classical.not_and_iff_or_not_not] at hcopy
              rcases hcopy with hc | hc
              · rw [not_not] at hc
                simp [List.isEmpty_iff, hc]
              · rw [Bool.not_eq_false] at hc
                simp [hc]
            rw [List.filterMap_cons_none, List.filter_cons_of_neg, ih]
            · simp [hpred]
            · simp [hskip, hpre]
              intro h1
              have hdrop : e.1.drop (f.length + 1) ≠ [] := by
                intro hnil
                have hlen := congrArg List.length hnil
                rw [List.length_drop] at hlen
                simp at hlen
                omega
              rcases Classical.not_and_iff_or_not_not.mp hcopy with hc | hc
              · exact absurd hdrop hc
              · rcases hB : endsWithSlash e.1 with _ | _
                · exact absurd hB hc
                · rfl
        · have hpred : ((f ++ ['/']).isPrefixOf e.1 && !endsWithSlash e.1 &&
              !(e.1.drop (f.length + 1)).isEmpty) = false := by
            simp [hpre]
          rw [List.filterMap_cons_none, List.filter_cons_of_neg, ih]
          · simp [hpred]
          · simp [hskip, hpre]

/-- C5: for an archive analyzed as `nested` with wrapping folder `f`, the
conversion outputs exactly the folder's file entries with the `f/` prefix
stripped and contents unchanged, and no directory (trailing-slash) entry
survives. -/
theorem convertNestedToFlat_flattens (entries : List (EntryName × Content))
    (f : EntryName)
    (h : analyzeZipStructure (entries.map Prod.fst) = .nested f) :
    convertNestedToFlat entries =
      (folderFileEntries f entries).map
        (fun e => (e.1.drop (f.length + 1), e.2)) ∧
    ∀ e ∈ convertNestedToFlat entries, endsWithSlash e.1 = false := by
  have heq : convertNestedToFlat entries = convertEntriesToFlat f entries := by
    unfold convertNestedToFlat
    rw [h]
  have heq2 := heq.trans (convertEntriesToFlat_eq f entries)
  refine ⟨heq2, ?_⟩
  intro e he
  rw [heq2] at he
  obtain ⟨x, hx, hmap⟩ := List.mem_map.mp he
  have hcond := (List.mem_filter.mp hx).2
  simp only [Bool.and_eq_true, Bool.not_eq_true'] at hcond
  obtain ⟨⟨hpre, hends⟩, hne⟩ := hcond
  have hdropne : x.1.drop (f.length + 1) ≠ [] := by
    intro hnil
    rw [hnil] at hne
    simp at hne
  rw [← hmap]
  unfold endsWithSlash
  rw [getLast?_drop_ne_nil _ _ hdropne]
  exact hends

/-- C5 (witness): the flattening theorem applied to `c5Entries`. -/
theorem convertNestedToFlat_flattens_witness :
    convertNestedToFlat c5Entries =
      (folderFileEntries ['a'] c5Entries).map
        (fun e => (e.1.drop (['a'].length + 1), e.2)) ∧
    ∀ e ∈ convertNestedToFlat c5Entries, endsWithSlash e.1 = false :=
  convertNestedToFlat_flattens c5Entries ['a'] (by decide)

/-! ### Claim C6: cache bound and least-frequently-used eviction. -/

theorem alistGet?_isSome_iff_mem {κ α : Type} [DecidableEq κ]
    (l : List (κ × α)) (k : κ) :
    (alistGet? l k).isSome ↔ k ∈ l.map Prod.fst := by
  induction l with
  | nil => simp [alistGet?]
  | cons p rest ih =>
      by_cases hpk : p.1 = k
      · simp [alistGet?, hpk]
      · simp [alistGet?, hpk, ih, Ne.symm hpk]

theorem alistSet_map_fst_present {κ α : Type} [DecidableEq κ]
    (l : List (κ × α)) (k : κ) (v : α) (h : (alistGet? l k).isSome) :
    (alistSet l k v).map Prod.fst = l.map Prod.fst := by
  induction l with
  | nil => simp [alistGet?] at h
  | cons p rest ih =>
      by_cases hpk : p.1 = k
      · simp [alistSet, hpk]
      · simp only [alistGet?, hpk, if_false] at h
        simp [alistSet, hpk, ih h]

theorem alistSet_map_fst_absent {κ α : Type} [DecidableEq κ]
    (l : List (κ × α)) (k : κ) (v : α) (h : alistGet? l k = none) :
    (alistSet l k v).map Prod.fst = l.map Prod.fst ++ [k] := by
  induction l with
  | nil => simp [alistSet]
  | cons p rest ih =>
      by_cases hpk : p.1 = k
      · simp [alistGet?, hpk] at h
      · simp only [alistGet?, hpk, if_false] at h
        simp [alistSet, hpk, ih h]

theorem alistErase_map_fst {κ α : Type} [DecidableEq κ]
    (l : List (κ × α)) (k : κ) :
    (alistErase l k).map Prod.fst = (l.map Prod.fst).erase k := by
  induction l with
  | nil => simp [alistErase]
  | cons p rest ih =>
      by_cases hpk : p.1 = k
      · simp [alistErase, hpk, List.erase_cons]
      · simp [alistErase, hpk, List.erase_cons, ih]

theorem alistErase_length_mem {κ α : Type} [DecidableEq κ]
    (l : List (κ × α)) (k : κ) (h : k ∈ l.map Prod.fst) :
    (alistErase l k).length + 1 = l.length := by
  induction l with
  | nil => simp at h
  | cons p rest ih =>
      by_cases hpk : p.1 = k
      · simp [alistErase, hpk]
      · have : k ∈ rest.map Prod.fst := by
          rcases List.mem_cons.mp h with h1 | h1
          · exact absurd h1.symm hpk
          · exact h1
        simp [alistErase, hpk, ih this]

theorem minAccessEntry_mem (best : String × Int) (l : List (String × Int)) :
    minAccessEntry best l ∈ best :: l := by
  induction l generalizing best with
  | nil => simp [minAccessEntry]
  | cons p rest ih =>
      show minAccessEntry (if p.2 < best.2 then p else best) rest ∈ best :: p :: rest
      have h := ih (if p.2 < best.2 then p else best)
      rcases List.mem_cons.mp h with h1 | h1
      · rw [h1]
        by_cases hlt : p.2 < best.2
        · simp [hlt]
        · simp [hlt]
      · exact List.mem_cons_of_mem _ (List.mem_cons_of_mem _ h1)

theorem minAccessEntry_le (best : String × Int) (l : List (String × Int)) :
    ∀ q ∈ best :: l, (minAccessEntry best l).2 ≤ q.2 := by
  induction l generalizing best with
  | nil =>
      intro q hq
      rcases List.mem_cons.mp hq with h1 | h1
      · rw [h1]
        exact le_refl _
      · simp at h1
  | cons p rest ih =>
      intro q hq
      show (minAccessEntry (if p.2 < best.2 then p else best) rest).2 ≤ q.2
      have hb' := ih (if p.2 < best.2 then p else best) _ (List.mem_cons_self _ _)
      have hle_best : (if p.2 < best.2 then p else best).2 ≤ best.2 := by
        by_cases hlt : p.2 < best.2
        · simp [hlt]
          omega
        · simp [hlt]
      have hle_p : (if p.2 < best.2 then p else best).2 ≤ p.2 := by
        by_cases hlt : p.2 < best.2
        · simp [hlt]
        · simp [hlt]
          omega
      rcases List.mem_cons.mp hq with h1 | h1
      · rw [h1]
        exact le_trans hb' hle_best
      · rcases List.mem_cons.mp h1 with h2 | h2
        · rw [h2]
          exact le_trans hb' hle_p
        · exact ih _ q (List.mem_cons_of_mem _ h2)

theorem minAccessEntry_first (best : String × Int) (l : List (String × Int)) :
    (best :: l).find? (fun q => q.2 == (minAccessEntry best l).2) =
      some (minAccessEntry best l) := by
  induction l generalizing best with
  | nil => simp [minAccessEntry, List.find?]
  | cons p rest ih =>
      show (best :: p :: rest).find?
          (fun q => q.2 == (minAccessEntry (if p.2 < best.2 then p else best) rest).2) =
        some (minAccessEntry (if p.2 < best.2 then p else best) rest)
      by_cases hlt : p.2 < best.2
      · rw [if_pos hlt]
        have hm_le : (minAccessEntry p rest).2 ≤ p.2 :=
          minAccessEntry_le p rest p (List.mem_cons_self _ _)
        have hne : (best.2 == (minAccessEntry p rest).2) = false := by
          simp only [beq_eq_false_iff_ne, ne_eq]
          omega
        rw [List.find?_cons_of_neg _ (by simp [hne])]
        exact ih p
      · rw [if_neg hlt]
        have hihb := ih best
        by_cases hbm : best.2 = (minAccessEntry best rest).2
        · have hfind : (best :: rest).find?
              (fun q => q.2 == (minAccessEntry best rest).2) = some best :=
            List.find?_cons_of_pos _ (by simp [hbm])
          have hbeq : best = minAccessEntry best rest := by
            have := hfind.symm.trans hihb
            exact Option.some.inj this
          rw [List.find?_cons_of_pos _ (by simp [hbm])]
          rw [← hbeq]
        · have hm_le : (minAccessEntry best rest).2 ≤ best.2 :=
            minAccessEntry_le best rest best (List.mem_cons_self _ _)
          have hm_lt : (minAccessEntry best rest).2 < best.2 :=
            lt_of_le_of_ne hm_le (fun h => hbm h.symm)
          have hpne : (p.2 == (minAccessEntry best rest).2) = false := by
            simp only [beq_eq_false_iff_ne, ne_eq]
            omega
          have hbne : (best.2 == (minAccessEntry best rest).2) = false := by
            simp only [beq_eq_false_iff_ne, ne_eq]
            omega
          rw [List.find?_cons_of_neg _ (by simp [hbne]),
              List.find?_cons_of_neg _ (by simp [hpne])]
          rw [List.find?_cons_of_neg _ (by simp [hbne])] at hihb
          exact hihb

theorem alistSet_length_absent {κ α : Type} [DecidableEq κ]
    (l : List (κ × α)) (k : κ) (v : α) (h : alistGet? l k = none) :
    (alistSet l k v).length = l.length + 1 := by
  have := alistSet_map_fst_absent l k v h
  have h1 := congrArg List.length this
  simpa using h1

theorem getCachedContent_snd_none (m : MemoryCacheManager) (fp ip : String)
    (h : alistGet? m.cache (mkCacheKey fp ip) = none) :
    (getCachedContent m fp ip).2 = m := by
  simp [getCachedContent, h]

theorem getCachedContent_snd_some (m : MemoryCacheManager) (fp ip : String)
    (c : Content) (h : alistGet? m.cache (mkCacheKey fp ip) = some c) :
    (getCachedContent m fp ip).2.cache = m.cache ∧
    (getCachedContent m fp ip).2.maxSize = m.maxSize ∧
    (getCachedContent m fp ip).2.accessCount =
      alistSet m.accessCount (mkCacheKey fp ip)
        ((alistGet? m.accessCount (mkCacheKey fp ip)).getD 0 + 1) := by
  refine ⟨?_, ?_, ?_⟩ <;> simp [getCachedContent, h]

theorem evictLeastUsed_eq (m : MemoryCacheManager) (p : String × Int)
    (rest : List (String × Int)) (hac : m.accessCount = p :: rest) :
    evictLeastUsed m =
      { m with cache := alistErase m.cache (minAccessEntry p rest).1,
               accessCount := alistErase m.accessCount (minAccessEntry p rest).1 } := by
  unfold evictLeastUsed
  rw [hac]

theorem alistGet?_eq_none_of_not_isSome {κ α : Type} [DecidableEq κ]
    {l : List (κ × α)} {k : κ} (h : ¬(alistGet? l k).isSome) :
    alistGet? l k = none := by
  rcases hx : alistGet? l k with _ | v
  · rfl
  · exact absurd (by simp [hx]) h

theorem cacheInv_applyCacheOp (m : MemoryCacheManager) (op : CacheOp)
    (h : cacheInv m) : cacheInv (applyCacheOp m op) := by
  obtain ⟨hsync, hlen, hmax⟩ := h
  cases op with
  | get fp ip =>
      show cacheInv (getCachedContent m fp ip).2
      rcases hget : alistGet? m.cache (mkCacheKey fp ip) with _ | c
      · rw [getCachedContent_snd_none m fp ip hget]
        exact ⟨hsync, hlen, hmax⟩
      · have hkc : mkCacheKey fp ip ∈ m.cache.map Prod.fst :=
          (alistGet?_isSome_iff_mem _ _).mp (by simp [hget])
        have hka : (alistGet? m.accessCount (mkCacheKey fp ip)).isSome :=
          (alistGet?_isSome_iff_mem _ _).mpr (hsync ▸ hkc)
        obtain ⟨hc, hmx, hacs⟩ := getCachedContent_snd_some m fp ip c hget
        refine ⟨?_, ?_, ?_⟩
        · rw [hc, hacs, alistSet_map_fst_present _ _ _ hka]
          exact hsync
        · rw [hc, hmx]
          exact hlen
        · rw [hmx]
          exact hmax
  | put fp ip c =>
      show cacheInv (cacheContent m fp ip c)
      by_cases hfull : m.maxSize ≤ m.cache.length
      · have hlen_eq : m.cache.length = m.maxSize := le_antisymm hlen hfull
        have hcne : m.cache ≠ [] := by
          intro hnil
          rw [hnil] at hlen_eq
          simp at hlen_eq
          omega
        have hane : m.accessCount ≠ [] := by
          intro hnil
          apply hcne
          have hkeys := hsync
          rw [hnil] at hkeys
          simpa using hkeys
        obtain ⟨p, rest, hac⟩ := List.exists_cons_of_ne_nil hane
        have hcc : cacheContent m fp ip c =
            { cache := alistSet (alistErase m.cache (minAccessEntry p rest).1)
                (mkCacheKey fp ip) c,
              accessCount := alistSet (alistErase m.accessCount (minAccessEntry p rest).1)
                (mkCacheKey fp ip) 1,
              maxSize := m.maxSize } := by
          unfold cacheContent
          rw [if_pos hfull, evictLeastUsed_eq m p rest hac]
        rw [hcc]
        have hkmem_ac : (minAccessEntry p rest).1 ∈ m.accessCount.map Prod.fst := by
          rw [hac]
          exact List.mem_map_of_mem Prod.fst (minAccessEntry_mem p rest)
        have hkmem_c : (minAccessEntry p rest).1 ∈ m.cache.map Prod.fst := by
          rw [hsync]
          exact hkmem_ac
        have hsync2 : (alistErase m.cache (minAccessEntry p rest).1).map Prod.fst =
            (alistErase m.accessCount (minAccessEntry p rest).1).map Prod.fst := by
          rw [alistErase_map_fst, alistErase_map_fst, hsync]
        have hlen2 : (alistErase m.cache (minAccessEntry p rest).1).length + 1 =
            m.cache.length :=
          alistErase_length_mem _ _ hkmem_c
        by_cases hpres : (alistGet? (alistErase m.cache (minAccessEntry p rest).1)
            (mkCacheKey fp ip)).isSome
        · have hpres_a : (alistGet? (alistErase m.accessCount (minAccessEntry p rest).1)
              (mkCacheKey fp ip)).isSome := by
            rw [alistGet?_isSome_iff_mem] at hpres ⊢
            rw [← hsync2]
            exact hpres
          refine ⟨?_, ?_, hmax⟩
          · show (alistSet (alistErase m.cache (minAccessEntry p rest).1)
                (mkCacheKey fp ip) c).map Prod.fst =
              (alistSet (alistErase m.accessCount (minAccessEntry p rest).1)
                (mkCacheKey fp ip) 1).map Prod.fst
            rw [alistSet_map_fst_present _ _ _ hpres,
                alistSet_map_fst_present _ _ _ hpres_a]
            exact hsync2
          · show (alistSet (alistErase m.cache (minAccessEntry p rest).1)
                (mkCacheKey fp ip) c).length ≤ m.maxSize
            rw [alistSet_length_present _ _ _ hpres]
            omega
        · have habs := alistGet?_eq_none_of_not_isSome hpres
          have habs_a : alistGet? (alistErase m.accessCount (minAccessEntry p rest).1)
              (mkCacheKey fp ip) = none := by
            apply alistGet?_eq_none_of_not_isSome
            rw [alistGet?_isSome_iff_mem, ← hsync2, ← alistGet?_isSome_iff_mem]
            exact hpres
          refine ⟨?_, ?_, hmax⟩
          · show (alistSet (alistErase m.cache (minAccessEntry p rest).1)
                (mkCacheKey fp ip) c).map Prod.fst =
              (alistSet (alistErase m.accessCount (minAccessEntry p rest).1)
                (mkCacheKey fp ip) 1).map Prod.fst
            rw [alistSet_map_fst_absent _ _ _ habs,
                alistSet_map_fst_absent _ _ _ habs_a, hsync2]
          · show (alistSet (alistErase m.cache (minAccessEntry p rest).1)
                (mkCacheKey fp ip) c).length ≤ m.maxSize
            rw [alistSet_length_absent _ _ _ habs]
            omega
      · have hcc : cacheContent m fp ip c =
            { cache := alistSet m.cache (mkCacheKey fp ip) c,
              accessCount := alistSet m.accessCount (mkCacheKey fp ip) 1,
              maxSize := m.maxSize } := by
          unfold cacheContent
          rw [if_neg hfull]
        rw [hcc]
        by_cases hpres : (alistGet? m.cache (mkCacheKey fp ip)).isSome
        · have hpres_a : (alistGet? m.accessCount (mkCacheKey fp ip)).isSome := by
            rw [alistGet?_isSome_iff_mem] at hpres ⊢
            rw [← hsync]
            exact hpres
          refine ⟨?_, ?_, hmax⟩
          · show (alistSet m.cache (mkCacheKey fp ip) c).map Prod.fst =
              (alistSet m.accessCount (mkCacheKey fp ip) 1).map Prod.fst
            rw [alistSet_map_fst_present _ _ _ hpres,
                alistSet_map_fst_present _ _ _ hpres_a]
            exact hsync
          · show (alistSet m.cache (mkCacheKey fp ip) c).length ≤ m.maxSize
            rw [alistSet_length_present _ _ _ hpres]
            exact hlen
        · have habs := alistGet?_eq_none_of_not_isSome hpres
          have habs_a : alistGet? m.accessCount (mkCacheKey fp ip) = none := by
            apply alistGet?_eq_none_of_not_isSome
            rw [alistGet?_isSome_iff_mem, ← hsync, ← alistGet?_isSome_iff_mem]
            exact hpres
          refine ⟨?_, ?_, hmax⟩
          · show (alistSet m.cache (mkCacheKey fp ip) c).map Prod.fst =
              (alistSet m.accessCount (mkCacheKey fp ip) 1).map Prod.fst
            rw [alistSet_map_fst_absent _ _ _ habs,
                alistSet_map_fst_absent _ _ _ habs_a, hsync]
          · show (alistSet m.cache (mkCacheKey fp ip) c).length ≤ m.maxSize
            rw [alistSet_length_absent _ _ _ habs]
            omega

theorem evictLeastUsed_nil (m : MemoryCacheManager) (h : m.accessCount = []) :
    evictLeastUsed m = m := by
  unfold evictLeastUsed
  rw [h]

theorem cacheContent_maxSize (m : MemoryCacheManager) (fp ip : String) (c : Content) :
    (cacheContent m fp ip c).maxSize = m.maxSize := by
  unfold cacheContent
  dsimp only
  split_ifs with hful
  · rcases hac : m.accessCount with _ | ⟨p, rest⟩
    · rw [evictLeastUsed_nil m hac]
    · rw [evictLeastUsed_eq m p rest hac]
  · rfl

theorem applyCacheOp_maxSize (m : MemoryCacheManager) (op : CacheOp) :
    (applyCacheOp m op).maxSize = m.maxSize := by
  cases op with
  | get fp ip =>
      show (getCachedContent m fp ip).2.maxSize = m.maxSize
      rcases hget : alistGet? m.cache (mkCacheKey fp ip) with _ | c
      · rw [getCachedContent_snd_none m fp ip hget]
      · exact (getCachedContent_snd_some m fp ip c hget).2.1
  | put fp ip c => exact cacheContent_maxSize m fp ip c

theorem cacheInv_runCacheOps (n : Nat) (hn : 1 ≤ n) (ops : List CacheOp) :
    cacheInv (runCacheOps n ops) ∧ (runCacheOps n ops).maxSize = n := by
  have hgen : ∀ (ops : List CacheOp) (m : MemoryCacheManager), cacheInv m →
      cacheInv (ops.foldl applyCacheOp m) ∧
        (ops.foldl applyCacheOp m).maxSize = m.maxSize := by
    intro ops
    induction ops with
    | nil => exact fun m hm => ⟨hm, rfl⟩
    | cons op rest ih =>
        intro m hm
        obtain ⟨h1, h2⟩ := ih (applyCacheOp m op) (cacheInv_applyCacheOp m op hm)
        exact ⟨h1, h2.trans (applyCacheOp_maxSize m op)⟩
  exact hgen ops { cache := [], accessCount := [], maxSize := n }
    ⟨rfl, Nat.zero_le n, hn⟩

theorem cache_bound_and_eviction_minimality (n : Nat) (hn : 1 ≤ n)
    (ops : List CacheOp) :
    (runCacheOps n ops).cache.length ≤ n ∧
    (runCacheOps n ops).cache.map Prod.fst =
      (runCacheOps n ops).accessCount.map Prod.fst ∧
    ∀ (p : String × Int) (rest : List (String × Int)),
      minAccessEntry p rest ∈ p :: rest ∧
      (∀ q ∈ p :: rest, (minAccessEntry p rest).2 ≤ q.2) ∧
      (p :: rest).find? (fun q => q.2 == (minAccessEntry p rest).2) =
        some (minAccessEntry p rest) := by
  obtain ⟨⟨hsync, hlen, -⟩, hmx⟩ := cacheInv_runCacheOps n hn ops
  refine ⟨le_trans hlen hmx.le, hsync, ?_⟩
  intro p rest
  exact ⟨minAccessEntry_mem p rest, minAccessEntry_le p rest,
    minAccessEntry_first p rest⟩

/-- C6 (counterexample): with configured capacity 0, a single `put` leaves
one cached entry, exceeding the capacity (the eviction helper returns
without evicting when the counter map is empty, and the insert happens
unconditionally). -/
theorem cache_capacity_counterexample :
    ¬((runCacheOps 0 [CacheOp.put "a" "b" [1]]).cache.length ≤ 0) := by
  decide

/-- C6 (witness): the bound applied to a four-operation run at capacity 2,
and the eviction choice applied to a concrete counter map with a tie. -/
theorem cache_bound_and_eviction_minimality_witness :
    (runCacheOps 2 [CacheOp.put "a" "b" [1], CacheOp.put "c" "d" [2],
        CacheOp.get "a" "b", CacheOp.put "e" "f" [3]]).cache.length ≤ 2 ∧
    (minAccessEntry ("x", 5) [("y", 3), ("z", 3)]).2 ≤ ("y", (3 : Int)).2 ∧
    (("x", (5 : Int)) :: [("y", 3), ("z", 3)]).find?
        (fun q => q.2 == (minAccessEntry ("x", 5) [("y", 3), ("z", 3)]).2) =
      some (minAccessEntry ("x", 5) [("y", 3), ("z", 3)]) :=
  ⟨(cache_bound_and_eviction_minimality 2 (by norm_num)
      [CacheOp.put "a" "b" [1], CacheOp.put "c" "d" [2],
        CacheOp.get "a" "b", CacheOp.put "e" "f" [3]]).1,
   ((cache_bound_and_eviction_minimality 2 (by norm_num) []).2.2
      ("x", 5) [("y", 3), ("z", 3)]).2.1 ("y", 3) (by simp),
   ((cache_bound_and_eviction_minimality 2 (by norm_num) []).2.2
      ("x", 5) [("y", 3), ("z", 3)]).2.2⟩

/-! ### Claim C8: the filename gate of `process_file`. -/

theorem reMatchChars_constructed (d6 name ext : List Char)
    (hd6len : d6.length = 6) (hall : d6.all Char.isDigit = true)
    (hname : name ≠ []) (hnl : name.contains '\n' = false)
    (hext : extOk ext) :
    reMatchChars ('[' :: (d6 ++ (']' :: (name ++ ('.' :: ext))))) = some d6 := by
  have hextlen : ext.length = 3 := by
    rcases hext with h | h <;>
    · have hl := congrArg List.length h
      simpa using hl
  have hextne : ext ≠ [] := by
    intro h
    rw [h] at hextlen
    simp at hextlen
  have hs : ('[' :: (d6 ++ (']' :: (name ++ ('.' :: ext))))) =
      (('[' :: d6 ++ ']' :: name ++ ['.']) ++ ext) := by
    simp
  have hlast_ne : ¬(('[' :: (d6 ++ (']' :: (name ++ ('.' :: ext))))).getLast? =
      some '\n') := by
    rw [hs, List.getLast?_append_of_ne_nil _ hextne]
    intro hcon
    have h1 : ext.getLast?.map Char.toLower = some 'p' ∨
        ext.getLast?.map Char.toLower = some 'z' := by
      rcases hext with h | h
      · left
        rw [← List.getLast?_map, h]
        decide
      · right
        rw [← List.getLast?_map, h]
        decide
    rw [hcon] at h1
    rcases h1 with h1 | h1 <;> simp at h1
  unfold reMatchChars
  rw [if_neg hlast_ne]
  dsimp only
  rw [if_pos rfl]
  have htake : (d6 ++ (']' :: (name ++ ('.' :: ext)))).take 6 = d6 := by
    rw [← hd6len]
    exact List.take_left _ _
  have hdrop : (d6 ++ (']' :: (name ++ ('.' :: ext)))).drop 6 =
      ']' :: (name ++ ('.' :: ext)) := by
    rw [← hd6len]
    exact List.drop_left _ _
  rw [htake, hdrop, if_pos ⟨hd6len, hall⟩]
  dsimp only
  rw [if_pos rfl]
  have htlen : (name ++ ('.' :: ext)).length = name.length + 4 := by
    simp [hextlen]
  rw [htlen]
  have hn1 : 1 ≤ name.length := List.length_pos.mpr hname
  rw [if_pos (by omega : 5 ≤ name.length + 4)]
  have hsub : name.length + 4 - 4 = name.length := by omega
  rw [hsub]
  have htake2 : (name ++ ('.' :: ext)).take name.length = name :=
    List.take_left _ _
  have hdrop2 : (name ++ ('.' :: ext)).drop name.length = '.' :: ext :=
    List.drop_left _ _
  rw [htake2, hdrop2]
  dsimp only
  rw [if_pos rfl, if_pos ⟨hext, hname, hnl⟩]

/-- C8: a filename that does not match the pattern makes `process_file`
record `skipped` with the name-format error and stop — the trace holds no
metadata fetch and no archive rewrite; and a filename built from six
digits, a nonempty newline-free name and a `zip`/`cbz` extension (any
case) yields exactly the six-digit group as the extracted id. -/
theorem processFile_filename_gate (tr : Translator) (dryRun : Bool)
    (oracle : PipelineOracle) (t : TaskRecord) (archivePath filename : String)
    (m : ArchiveMeta) (now : String) (d6 name ext : List Char)
    (hbad : extractId filename = none)
    (hd6len : d6.length = 6) (hall : d6.all Char.isDigit = true)
    (hname : name ≠ []) (hnl : name.contains '\n' = false) (hext : extOk ext) :
    processFile tr dryRun oracle t archivePath filename m now =
      { task := updateFileStatus t filename .skipped "文件名格式不符合" now,
        archive := m, ret := false,
        trace := [PipelineEvent.updateStatus .skipped] } ∧
    reMatchChars ('[' :: (d6 ++ (']' :: (name ++ ('.' :: ext))))) = some d6 := by
  constructor
  · simp [processFile, hbad]
  · exact reMatchChars_constructed d6 name ext hd6len hall hname hnl hext

/-- C8 (witness): a malformed name is skipped and `[123456]name.CbZ`
yields id `123456`. -/
theorem processFile_filename_gate_witness :
    processFile { translationDict := [], reverseDict := [] } false
        { metadataOk := true, rewriteOk := true, newPath := none }
        c1EmptyTask "p" "badname.zip" { metadataJson := none, comicInfo := none }
        "t1" =
      { task := updateFileStatus c1EmptyTask "badname.zip" .skipped
          "文件名格式不符合" "t1",
        archive := { metadataJson := none, comicInfo := none }, ret := false,
        trace := [PipelineEvent.updateStatus .skipped] } ∧
    reMatchChars ('[' :: (['1', '2', '3', '4', '5', '6'] ++
        (']' :: (['n', 'a'] ++ ('.' :: ['C', 'b', 'Z']))))) =
      some ['1', '2', '3', '4', '5', '6'] :=
  processFile_filename_gate { translationDict := [], reverseDict := [] } false
    { metadataOk := true, rewriteOk := true, newPath := none }
    c1EmptyTask "p" "badname.zip" { metadataJson := none, comicInfo := none }
    "t1" ['1', '2', '3', '4', '5', '6'] ['n', 'a'] ['C', 'b', 'Z']
    (by decide) (by decide) (by decide) (by decide) (by decide) (by decide)

/-! ### Claim C3: success requires both phases; translation is
all-or-nothing. -/

theorem translateTag_not_found (tr : Translator) (tag : EntryName)
    (h : tagLacksTranslation tr tag) : (translateTag tr tag).2 = false := by
  obtain ⟨hne, hrd, htd⟩ := h
  unfold translateTag
  rw [if_neg hne]
  dsimp only
  rw [hrd, htd]
  rfl

theorem transFoldl_false (tr : Translator) (tags : List EntryName)
    (acc : List EntryName × Bool) (hacc : acc.2 = false) :
    (tags.foldl
      (fun acc tag =>
        let r := translateTag tr tag
        (acc.1 ++ [r.1], acc.2 && r.2)) acc).2 = false := by
  induction tags generalizing acc with
  | nil => exact hacc
  | cons tg rest ih =>
      rw [List.foldl_cons]
      apply ih
      dsimp only
      rw [hacc]
      rfl

theorem transFoldl_false_of_mem (tr : Translator) (tags : List EntryName)
    (tag : EntryName) (hmem : tag ∈ tags)
    (htag : (translateTag tr tag).2 = false) :
    ∀ acc : List EntryName × Bool,
      (tags.foldl
        (fun acc tag =>
          let r := translateTag tr tag
          (acc.1 ++ [r.1], acc.2 && r.2)) acc).2 = false := by
  induction tags with
  | nil => simp at hmem
  | cons tg rest ih =>
      intro acc
      rw [List.foldl_cons]
      rcases List.mem_cons.mp hmem with h1 | h1
      · apply transFoldl_false
        dsimp only
        rw [← h1, htag]
        simp
      · exact ih h1 _

theorem translateTagsList_snd_false (tr : Translator) (tags : List EntryName)
    (tag : EntryName) (hmem : tag ∈ tags)
    (htag : (translateTag tr tag).2 = false) :
    (translateTagsList tr tags).2 = false := by
  unfold translateTagsList
  rw [if_neg (List.ne_nil_of_mem hmem)]
  exact transFoldl_false_of_mem tr tags tag hmem htag _

theorem archiveTags_untranslated (tr : Translator) (m : ArchiveMeta)
    (tag : EntryName) (hmem : tag ∈ archiveTags m)
    (hlack : tagLacksTranslation tr tag) :
    (m.metadataJson.isSome || m.comicInfo.isSome) = true ∧
      (translateContent tr m).2 = false := by
  have htag : (translateTag tr tag).2 = false := translateTag_not_found tr tag hlack
  rcases List.mem_append.mp hmem with hj | hx
  · rcases hmj : m.metadataJson with _ | jt
    · rw [hmj] at hj
      simp at hj
    · rcases jt with tags | s | _
      · rw [hmj] at hj
        simp only [List.mem_append] at hj
        have hj' : tag ∈ tags := by simpa using hj
        have hfold := translateTagsList_snd_false tr tags tag hj' htag
        exact ⟨by simp [hmj], by simp [translateContent, hmj, hfold]⟩
      · rw [hmj] at hj
        have hj' : tag ∈ splitCommaStrip s := by simpa using hj
        have hfold := translateTagsList_snd_false tr (splitCommaStrip s) tag hj' htag
        exact ⟨by simp [hmj], by simp [translateContent, hmj, hfold]⟩
      · rw [hmj] at hj
        simp at hj
  · rcases hci : m.comicInfo with _ | xi
    · rw [hci] at hx
      simp at hx
    · rcases hxt : xi.tagsText with _ | txt
      · rw [hci] at hx
        dsimp only at hx
        rw [hxt] at hx
        simp at hx
      · rw [hci] at hx
        dsimp only at hx
        rw [hxt] at hx
        have hx' : tag ∈ splitCommaStrip txt := by simpa using hx
        have htxtne : txt ≠ [] := by
          intro h0
          rw [h0] at hx'
          have hnil : splitCommaStrip ([] : EntryName) = [] := rfl
          rw [hnil] at hx'
          exact absurd hx' (List.not_mem_nil tag)
        have hfold := translateTagsList_snd_false tr (splitCommaStrip txt) tag hx' htag
        refine ⟨by simp [hci], ?_⟩
        simp [translateContent, hci, hxt, htxtne, hfold]

theorem translateMetadataInCbz_failed (tr : Translator) (dryRun : Bool)
    (t : TaskRecord) (filename : String) (m : ArchiveMeta) (now : String)
    (hsome : (m.metadataJson.isSome || m.comicInfo.isSome) = true)
    (hfail : (translateContent tr m).2 = false) :
    translateMetadataInCbz tr dryRun t filename m now =
      { ok := false,
        task := updateFileTranslationStatus t filename .failed
          "存在未翻译的标签" now,
        archive := m, wroteArchive := false } := by
  unfold translateMetadataInCbz
  rw [if_pos hsome]
  dsimp only
  rw [hfail]
  simp

theorem updateFileTranslationStatus_lookup (t : TaskRecord) (f : String)
    (st : TrStatus) (e now : String) :
    (alistGet? (updateFileTranslationStatus t f st e now).files f).map
      (fun r => r.translationStatus) = some st := by
  unfold updateFileTranslationStatus
  dsimp only
  rw [alistGet?_alistSet_self]
  rfl

/-- C3: an overall `success` status is recorded only when both the archive
rewrite and the translation phase succeeded (part one: the status-update
trace of `process_file`); and when any tag of the archive's metadata lacks
a translation, the translation is recorded `failed`, the archive's entries
are not rewritten, and its tag content is unchanged (part two:
`translate_metadata_in_cbz`). -/
theorem processFile_success_and_allOrNothing (tr : Translator) (dryRun : Bool)
    (oracle : PipelineOracle) (t : TaskRecord) (archivePath filename : String)
    (m : ArchiveMeta) (now : String) :
    (PipelineEvent.updateStatus Status.success ∈
        (processFile tr dryRun oracle t archivePath filename m now).trace →
      oracle.rewriteOk = true ∧
        (translateMetadataInCbz tr dryRun t filename m now).ok = true) ∧
    (∀ tag ∈ archiveTags m, tagLacksTranslation tr tag →
      (translateMetadataInCbz tr dryRun t filename m now).ok = false ∧
      (translateMetadataInCbz tr dryRun t filename m now).wroteArchive = false ∧
      (translateMetadataInCbz tr dryRun t filename m now).archive = m ∧
      (alistGet? (translateMetadataInCbz tr dryRun t filename m now).task.files
          filename).map (fun r => r.translationStatus) = some TrStatus.failed) := by
  constructor
  · intro hmem
    by_cases hid : (extractId filename).isNone = true
    · simp [processFile, hid] at hmem
    · by_cases hmok : oracle.metadataOk = true
      · by_cases hrok : oracle.rewriteOk = true
        · by_cases ho : (translateMetadataInCbz tr dryRun t filename m now).ok = true
          · exact ⟨hrok, ho⟩
          · simp [processFile, hid, hmok, hrok, ho] at hmem
        · simp [processFile, hid, hmok, hrok] at hmem
      · simp [processFile, hid, hmok] at hmem
  · intro tag hmem hlack
    obtain ⟨hsome, hfail⟩ := archiveTags_untranslated tr m tag hmem hlack
    rw [translateMetadataInCbz_failed tr dryRun t filename m now hsome hfail]
    exact ⟨rfl, rfl, rfl,
      updateFileTranslationStatus_lookup t filename .failed "存在未翻译的标签" now⟩

/-- C3 (witness): with every oracle succeeding and nothing to translate,
the trace records `success` and the theorem yields both flags; with the
empty translator and the tag `x` present, the translation phase fails
without touching the archive. -/
theorem processFile_success_and_allOrNothing_witness :
    ({ metadataOk := true, rewriteOk := true,
        newPath := none : PipelineOracle }.rewriteOk = true ∧
      (translateMetadataInCbz c3Translator false c1EmptyTask "[123456]a.zip"
        c3MetaEmpty "t").ok = true) ∧
    ((translateMetadataInCbz c3Translator false c1EmptyTask "[123456]a.zip"
        c3Meta "t").ok = false ∧
      (translateMetadataInCbz c3Translator false c1EmptyTask "[123456]a.zip"
        c3Meta "t").wroteArchive = false ∧
      (translateMetadataInCbz c3Translator false c1EmptyTask "[123456]a.zip"
        c3Meta "t").archive = c3Meta ∧
      (alistGet? (translateMetadataInCbz c3Translator false c1EmptyTask
          "[123456]a.zip" c3Meta "t").task.files "[123456]a.zip").map
        (fun r => r.translationStatus) = some TrStatus.failed) :=
  ⟨(processFile_success_and_allOrNothing c3Translator false
      { metadataOk := true, rewriteOk := true, newPath := none }
      c1EmptyTask "p" "[123456]a.zip" c3MetaEmpty "t").1 (by decide),
   (processFile_success_and_allOrNothing c3Translator false
      { metadataOk := true, rewriteOk := true, newPath := none }
      c1EmptyTask "p" "[123456]a.zip" c3Meta "t").2 ['x'] (by decide)
      ⟨by decide, by decide, by decide⟩⟩
